import Mathlib

/-!
Verification model of `app/services/viwanda_scraper.py`: the document
harvester (file-link extraction, pagination walk, content-hash
deduplicating downloader). Python functions are shallowly embedded as pure
Lean functions; the network and the filesystem are passed in explicitly as
values, fallible operations return `Option`.
-/

set_option maxHeartbeats 1000000

/-! ### Model of `urllib.parse` (standard-library code used by the scraper)

`urlparse`, `urljoin`, `urlunparse` are modelled from CPython's
`urllib/parse.py`: scheme split, netloc split, fragment split, query split,
params split; join with dot-segment resolution. Strings are processed as
their character lists. WHATWG control-character stripping is out of scope;
the hrefs this repository handles are plain ASCII.
-/

/-- Characters allowed in a URL scheme (CPython `scheme_chars`). -/
def schemeChar (c : Char) : Bool :=
  c.isAlpha || c.isDigit || c = '+' || c = '-' || c = '.'

/-- Split a leading `scheme:` off a URL if present, otherwise use `dflt`
(CPython `urlsplit`: the text before the first colon must start with an
ASCII letter and consist of scheme characters; the scheme is lowercased). -/
def splitScheme (cs : List Char) (dflt : String) : String × List Char :=
  match cs.findIdx? (· = ':') with
  | some i =>
      if 0 < i ∧ (cs.headD ' ').isAlpha ∧ (cs.take i).all schemeChar then
        (String.mk ((cs.take i).map Char.toLower), cs.drop (i + 1))
      else (dflt, cs)
  | none => (dflt, cs)

/-- Split `//netloc` off the remainder (CPython `_splitnetloc`): the netloc
runs up to the next `/`, `?` or `#`. -/
def splitNetloc (cs : List Char) : String × List Char :=
  if cs.take 2 = ['/', '/'] then
    let rest := cs.drop 2
    let i := rest.findIdx (fun c => c = '/' || c = '?' || c = '#')
    (String.mk (rest.take i), rest.drop i)
  else ("", cs)

/-- Split the fragment off at the first `#`. -/
def splitFragment (cs : List Char) : List Char × String :=
  match cs.findIdx? (· = '#') with
  | some i => (cs.take i, String.mk (cs.drop (i + 1)))
  | none => (cs, "")

/-- Split the query off at the first `?` (CPython does this after the
fragment split). -/
def splitQuery (cs : List Char) : List Char × String :=
  match cs.findIdx? (· = '?') with
  | some i => (cs.take i, String.mk (cs.drop (i + 1)))
  | none => (cs, "")

/-- Split path parameters at the first `;` of the last path segment
(CPython `_splitparams`). -/
def splitParams (cs : List Char) : List Char × String :=
  let start := match cs.reverse.findIdx? (· = '/') with
    | some j => cs.length - 1 - j
    | none => 0
  match (cs.drop start).findIdx? (· = ';') with
  | some k => (cs.take (start + k), String.mk (cs.drop (start + k + 1)))
  | none => (cs, "")

structure URLParts where
  scheme : String
  netloc : String
  path : String
  params : String
  query : String
  fragment : String
deriving Repr, DecidableEq

/-- Model of `urllib.parse.urlparse`, with a default scheme (CPython's
`urlparse(url, scheme)`, used by `urljoin` to inherit the base scheme). -/
def urlparseW (url : String) (dflt : String) : URLParts :=
  let sc := splitScheme url.data dflt
  let nl := splitNetloc sc.2
  let fr := splitFragment nl.2
  let qu := splitQuery fr.1
  let pp := splitParams qu.1
  { scheme := sc.1, netloc := nl.1, path := String.mk pp.1,
    params := pp.2, query := qu.2, fragment := fr.2 }

/-- Model of Python `str.lower` (ASCII case folding). -/
def lowerStr (s : String) : String := String.mk (s.data.map Char.toLower)

/-- CPython `urllib.parse.uses_relative`. -/
def uses_relative : List String :=
  ["", "ftp", "http", "gopher", "nntp", "imap", "wais", "file", "https",
   "shttp", "mms", "prospero", "rtsp", "rtspu", "sftp", "svn", "svn+ssh",
   "ws", "wss"]

/-- CPython `urllib.parse.uses_netloc`. -/
def uses_netloc : List String :=
  ["", "ftp", "http", "gopher", "nntp", "telnet", "imap", "wais", "file",
   "mms", "https", "shttp", "snews", "prospero", "rtsp", "rtspu", "rsync",
   "svn", "svn+ssh", "sftp", "nfs", "git", "git+ssh", "ws", "wss"]

/-- Model of `urllib.parse.urlunsplit`. -/
def urlunsplitW (scheme netloc path query fragment : String) : String :=
  let url := path
  let url :=
    if netloc ≠ "" ∨ url.data.take 2 = ['/', '/'] then
      "//" ++ netloc ++ (if url ≠ "" ∧ url.data.headD ' ' ≠ '/' then "/" ++ url else url)
    else url
  let url := if scheme ≠ "" then scheme ++ ":" ++ url else url
  let url := if query ≠ "" then url ++ "?" ++ query else url
  if fragment ≠ "" then url ++ "#" ++ fragment else url

/-- Model of `urllib.parse.urlunparse`. -/
def urlunparseW (scheme netloc path params query fragment : String) : String :=
  urlunsplitW scheme netloc (if params ≠ "" then path ++ ";" ++ params else path)
    query fragment

/-- Python `str.split` on a one-character separator (splits on every
occurrence, keeping empty pieces; `"".split(sep) = [""]`). -/
def splitChar (sep : Char) : List Char → List Char → List String
  | [], acc => [String.mk acc.reverse]
  | c :: rest, acc =>
      if c = sep then String.mk acc.reverse :: splitChar sep rest []
      else splitChar sep rest (c :: acc)

/-- Python `sep.join` for a one-character separator. -/
def joinChar (sep : Char) : List String → String
  | [] => ""
  | [s] => s
  | s :: rest => s ++ String.mk [sep] ++ joinChar sep rest

/-- Drop empty strings from all but the first and last element (CPython
`urljoin`: `segments[1:-1] = filter(None, segments[1:-1])`). -/
def filterMiddleAux : List String → List String
  | [] => []
  | [b] => [b]
  | b :: rest => if b = "" then filterMiddleAux rest else b :: filterMiddleAux rest

/-- Apply `filterMiddleAux` to the tail, keeping the head untouched. -/
def filterMiddle : List String → List String
  | [] => []
  | a :: rest => a :: filterMiddleAux rest

/-- CPython `urljoin` dot-segment resolution loop (`..` pops, `.` is
skipped, popping an empty stack is ignored). -/
def resolveSegments (segments : List String) : List String :=
  segments.foldl (fun acc seg =>
    if seg = ".." then acc.dropLast
    else if seg = "." then acc
    else acc ++ [seg]) []

/-- Model of `urllib.parse.urljoin`. -/
def urljoinW (base url : String) : String :=
  if base = "" then url
  else if url = "" then base
  else
    let b := urlparseW base ""
    let u := urlparseW url b.scheme
    if u.scheme ≠ b.scheme ∨ ¬ uses_relative.contains u.scheme then url
    else if uses_netloc.contains u.scheme ∧ u.netloc ≠ "" then
      urlunparseW u.scheme u.netloc u.path u.params u.query u.fragment
    else
      let netloc := if uses_netloc.contains u.scheme then b.netloc else u.netloc
      if u.path = "" ∧ u.params = "" then
        urlunparseW u.scheme netloc b.path b.params
          (if u.query = "" then b.query else u.query) u.fragment
      else
        let baseParts := splitChar '/' b.path.data []
        let baseParts :=
          if baseParts.getLast? ≠ some "" then baseParts.dropLast else baseParts
        let segments :=
          if u.path.data.headD ' ' = '/' then splitChar '/' u.path.data []
          else filterMiddle (baseParts ++ splitChar '/' u.path.data [])
        let resolved := resolveSegments segments
        let resolved :=
          if segments.getLast? = some "." ∨ segments.getLast? = some ".." then
            resolved ++ [""]
          else resolved
        let joined := joinChar '/' resolved
        urlunparseW u.scheme netloc (if joined = "" then "/" else joined)
          u.params u.query u.fragment

/-- Model of `pathlib.PurePath.name`: the final path component (pathlib
normalises away empty and `.` segments). -/
def pathName (p : String) : String :=
  ((splitChar '/' p.data []).filter (fun s => s ≠ "" ∧ s ≠ ".")).getLastD ""

/-- Index of the last `.` in a filename, if any. -/
def lastDotIdx (cs : List Char) : Option Nat :=
  (cs.reverse.findIdx? (· = '.')).map (fun j => cs.length - 1 - j)

/-- Model of `pathlib.PurePath.suffix`: the extension from the last dot,
empty when the dot is leading, trailing or absent. -/
def pathSuffix (name : String) : String :=
  match lastDotIdx name.data with
  | some i =>
      if 0 < i ∧ i < name.data.length - 1 then String.mk (name.data.drop i) else ""
  | none => ""

/-- Model of `pathlib.PurePath.stem`: the filename without `pathSuffix`. -/
def pathStem (name : String) : String :=
  match lastDotIdx name.data with
  | some i =>
      if 0 < i ∧ i < name.data.length - 1 then String.mk (name.data.take i) else name
  | none => name

/-! ### `viwanda_scraper.py`: module-level helpers -/

/-- `FILE_EXTENSIONS` from `viwanda_scraper.py`. -/
def FILE_EXTENSIONS : List String :=
  [".pdf", ".xls", ".xlsx", ".csv", ".zip", ".doc", ".docx", ".txt"]

/-- `_is_file_link`: a href is a file link iff the lowercased path
component of its parse ends in an allow-listed extension; the empty href is
rejected up front (`if not href`). -/
def _is_file_link (href : String) : Bool :=
  if href = "" then false
  else
    let path := lowerStr (urlparseW href "").path
    FILE_EXTENSIONS.any (fun ext => decide (ext.data <:+ path.data))

/-- `_safe_filename_from_url`: the last path component of the URL, or the
URL with `/` replaced by `_` when that is empty. -/
def _safe_filename_from_url (url : String) : String :=
  let name := pathName (urlparseW url "").path
  if name = "" then String.mk (url.data.map (fun c => if c = '/' then '_' else c))
  else name

/-! ### `fetch_document_links_and_next`: page model and link extraction

A fetched, parsed page is modelled as the lists of its `link` elements and
its anchors, in document order. An anchor's `class` attribute, as handed to
a BeautifulSoup matcher function, is absent (`None`), a plain string, or a
list of tokens. -/

/-- The value BeautifulSoup passes for a tag's `class` attribute. -/
inductive ClassAttr where
  | absent : ClassAttr
  | str : String → ClassAttr
  | tokens : List String → ClassAttr
deriving Repr, DecidableEq

/-- Python `" ".join`. -/
def joinSpace : List String → String
  | [] => ""
  | [t] => t
  | t :: rest => t ++ " " ++ joinSpace rest

/-- `has_next_class` from `fetch_document_links_and_next`: `None` never
matches; a list is joined with spaces; the test is a case-insensitive
substring check for `"next"`. -/
def has_next_class : ClassAttr → Bool
  | .absent => false
  | .tokens ts => decide ("next".data <:+: (lowerStr (joinSpace ts)).data)
  | .str c => decide ("next".data <:+: (lowerStr c).data)

/-- A `<link>` element: whether its `rel` contains `next`, and its href. -/
structure LinkTag where
  relNext : Bool
  href : Option String
deriving Repr, DecidableEq

/-- An anchor element: href, `.string` text (None when the anchor has no
single string child), whether its `rel` contains `next`, and its class. -/
structure Anchor where
  href : Option String
  textStr : Option String
  relNext : Bool
  classAttr : ClassAttr
deriving Repr, DecidableEq

/-- A parsed page (`BeautifulSoup(resp.text, "html.parser")`), reduced to
the element lists the scraper inspects, in document order. -/
structure HtmlDoc where
  linkTags : List LinkTag
  anchors : List Anchor
deriving Repr, DecidableEq

/-- The file-link accumulation loop of `fetch_document_links_and_next`:
for every anchor carrying an href, append `urljoin(page_url, href)` when
`_is_file_link(href)` holds. -/
def extractFileLinks (page_url : String) (anchors : List Anchor) : List String :=
  anchors.foldl (fun acc a =>
    match a.href with
    | some href => if _is_file_link href then acc ++ [urljoinW page_url href] else acc
    | none => acc) []

/-- The anchor-text test `lambda t: t and "next" in t.lower()`. -/
def textHasNext : Option String → Bool
  | none => false
  | some t => t ≠ "" && decide ("next".data <:+: (lowerStr t).data)

/-- The next-link search of `fetch_document_links_and_next`, in source
order: `link rel=next`, then `a rel=next`, then anchor text containing
"next", then `class_=has_next_class`. Returns the found element's href
attribute (which may itself be absent). -/
def findNextTag (soup : HtmlDoc) : Option (Option String) :=
  match soup.linkTags.find? (·.relNext) with
  | some l => some l.href
  | none =>
    match soup.anchors.find? (·.relNext) with
    | some a => some a.href
    | none =>
      match soup.anchors.find? (fun a => textHasNext a.textStr) with
      | some a => some a.href
      | none => (soup.anchors.find? (fun a => has_next_class a.classAttr)).map (·.href)

/-- `if next_link and next_link.get("href"): next_url = urljoin(...)` —
a found element with a missing or empty href yields no next page. -/
def nextUrlOf (page_url : String) (soup : HtmlDoc) : Option String :=
  match findNextTag soup with
  | some (some h) => if h = "" then none else some (urljoinW page_url h)
  | _ => none

/-- `fetch_document_links_and_next(page_url)`: `net` stands for
`requests.get` plus HTML parsing; `none` models a network failure or a
non-success status (`raise_for_status`), which raises. On success the
file links and the optional next-page URL are returned. -/
def fetch_document_links_and_next (net : String → Option HtmlDoc)
    (page_url : String) : Option (List String × Option String) :=
  match net page_url with
  | none => none
  | some soup => some (extractFileLinks page_url soup.anchors, nextUrlOf page_url soup)

/-! ### `scrape_viwanda_save`: the pagination walk

The while-loop over `to_visit` / `visited_pages` / `file_urls` /
`pages_crawled`. `trace` additionally records, in order, the page URLs the
loop actually processed (marked visited and counted against `max_pages`) —
an observation of the loop used to state the claims; `visited` and
`fileUrls` are exactly the source's `visited_pages` and `file_urls`
(the set is kept as a duplicate-free list). -/

structure WalkResult where
  trace : List String
  visited : List String
  fileUrls : List String
deriving Repr, DecidableEq

/-- One run of the crawl loop of `scrape_viwanda_save`, from a given queue,
visited set, accumulated file-URL set and page counter. -/
def walkAux (net : String → Option HtmlDoc) (follow : Bool) (maxPages : Nat) :
    List String → List String → List String → Nat → WalkResult
  | [], visited, fileUrls, _ => ⟨[], visited, fileUrls⟩
  | url :: rest, visited, fileUrls, crawled =>
    if hcap : maxPages ≤ crawled then ⟨[], visited, fileUrls⟩
    else if hv : url ∈ visited then
      walkAux net follow maxPages rest visited fileUrls crawled
    else
      match fetch_document_links_and_next net url with
      | none =>
          let r := walkAux net follow maxPages rest (url :: visited) fileUrls (crawled + 1)
          ⟨url :: r.trace, r.visited, r.fileUrls⟩
      | some (links, nextU) =>
          let fileUrls' := links.foldl (fun acc l => if l ∈ acc then acc else acc ++ [l]) fileUrls
          let queue' :=
            match nextU with
            | some nu =>
                if follow = true ∧ nu ≠ "" ∧ nu ∉ url :: visited then rest ++ [nu] else rest
            | none => rest
          let r := walkAux net follow maxPages queue' (url :: visited) fileUrls' (crawled + 1)
          ⟨url :: r.trace, r.visited, r.fileUrls⟩
termination_by q _ _ crawled => (maxPages - crawled, q.length)
decreasing_by
  · apply Prod.Lex.right; simp
  · apply Prod.Lex.left; omega
  · apply Prod.Lex.left; omega

/-! ### `_download_and_dedupe` and the download loop

The destination directory is the association list `files` (filename to
byte content, bytes as `List Nat`); `hashes` is the `existing_hashes` dict
(hash to saved path; insertion is cons, lookup takes the first match, so a
later insert of the same key shadows an earlier one, exactly like a dict
assignment); `scratch` models the temp-file area (`tempfile` names are
outside the destination directory). The content hash (`hashlib.sha256`)
is an explicit function parameter `hashFn`; the hash of a download is
computed from the same bytes that are written, as in the source. -/

structure DLState where
  files : List (String × List Nat)
  hashes : List (List Nat × String)
  scratch : List (String × List Nat)
deriving Repr, DecidableEq

/-- Dict lookup, first match first (with cons-insertion this is exactly
Python-dict lookup). -/
def dictLookup (d : List (List Nat × String)) (k : List Nat) : Option String :=
  match d with
  | [] => none
  | kv :: rest => if kv.1 = k then some kv.2 else dictLookup rest k

/-- Filesystem lookup by filename. -/
def fsLookup (fs : List (String × List Nat)) (n : String) : Option (List Nat) :=
  match fs with
  | [] => none
  | e :: rest => if e.1 = n then some e.2 else fsLookup rest n

/-- `Path.exists()` for a name in a directory listing. -/
def fsHas (fs : List (String × List Nat)) (n : String) : Bool :=
  (fsLookup fs n).isSome

/-- Remove a name from a file listing (`Path.unlink`). -/
def fsErase (fs : List (String × List Nat)) (n : String) : List (String × List Nat) :=
  fs.filter (fun e => ¬ e.1 = n)

/-- Overwrite a name in a file listing (opening a file for writing). -/
def fsSet (fs : List (String × List Nat)) (n : String) (v : List Nat) :
    List (String × List Nat) :=
  (n, v) :: fsErase fs n

/-- The candidate filename of the collision loop: `f"{base}_{i}{ext}"`. -/
def collisionCandidate (base ext : String) (i : Nat) : String :=
  base ++ "_" ++ Nat.repr i ++ ext

/-- The `while True` collision loop of `_download_and_dedupe`, searching
`base_1ext, base_2ext, ...` for a name not present in the directory. The
candidates are pairwise distinct, so `files.length + 1` attempts always
suffice; the fuel-exhausted fallback is unreachable. -/
def freshTargetGo (files : List (String × List Nat)) (base ext : String) :
    Nat → Nat → String
  | 0, i => collisionCandidate base ext i
  | fuel + 1, i =>
      let cand := collisionCandidate base ext i
      if fsHas files cand then freshTargetGo files base ext fuel (i + 1) else cand

/-- Target-name choice of `_download_and_dedupe`: the plain filename, or
the first collision-suffixed name that is free. -/
def freshTarget (files : List (String × List Nat)) (filename : String) : String :=
  if fsHas files filename then
    freshTargetGo files (pathStem filename) (pathSuffix filename) (files.length + 1) 1
  else filename

/-- `_download_and_dedupe(url, save_dir, existing_hashes)`.

`netFile` stands for the streaming `requests.get`: `none` models any
failure while downloading or writing (network error, non-success status,
I/O error), which lands in the `except` branch — the temp file is
unlinked and the exception propagates (result `none`). On success the
temp file holds the body, the hash is taken over those same bytes; a hash
hit discards the temp file and returns the indexed path, otherwise the
temp file is moved to a collision-free target which is registered. -/
def _download_and_dedupe (hashFn : List Nat → List Nat)
    (netFile : String → Option (List Nat)) (tmpName : String)
    (url : String) (save_dir : String) (s : DLState) : Option String × DLState :=
  let s1 : DLState := { s with scratch := fsSet s.scratch tmpName [] }
  match netFile url with
  | none => (none, { s1 with scratch := fsErase s1.scratch tmpName })
  | some content =>
      let s2 : DLState := { s1 with scratch := fsSet s1.scratch tmpName content }
      let file_hash := hashFn content
      match dictLookup s2.hashes file_hash with
      | some p => (some p, { s2 with scratch := fsErase s2.scratch tmpName })
      | none =>
          let filename := _safe_filename_from_url url
          let target := freshTarget s2.files filename
          let targetPath := save_dir ++ "/" ++ target
          (some targetPath,
           { files := (target, content) :: s2.files,
             hashes := (file_hash, targetPath) :: s2.hashes,
             scratch := fsErase s2.scratch tmpName })

/-- The download loop of `scrape_viwanda_save`: each URL is attempted;
a failure (exception) is logged and skipped, a success appends the saved
path. -/
def runDownloads (hashFn : List Nat → List Nat)
    (netFile : String → Option (List Nat)) (tmpName save_dir : String) :
    List String → DLState → List String × DLState
  | [], s => ([], s)
  | url :: rest, s =>
      let step := _download_and_dedupe hashFn netFile tmpName url save_dir s
      let tail := runDownloads hashFn netFile tmpName save_dir rest step.2
      match step.1 with
      | some p => (p :: tail.1, tail.2)
      | none => tail

/-- Instrumented download loop: identical to `runDownloads` but each saved
path is paired with the URL that produced it (used to state per-URL
properties; `runDownloadsR_fst_eq` relates the two). -/
def runDownloadsR (hashFn : List Nat → List Nat)
    (netFile : String → Option (List Nat)) (tmpName save_dir : String) :
    List String → DLState → List (String × String) × DLState
  | [], s => ([], s)
  | url :: rest, s =>
      let step := _download_and_dedupe hashFn netFile tmpName url save_dir s
      let tail := runDownloadsR hashFn netFile tmpName save_dir rest step.2
      match step.1 with
      | some p => ((url, p) :: tail.1, tail.2)
      | none => tail

/-- The preload loop of `scrape_viwanda_save`: hash every file already in
the destination directory and seed `existing_hashes` with
`hash → str(path)`. -/
def preloadHashes (hashFn : List Nat → List Nat) (save_dir : String)
    (files0 : List (String × List Nat)) : List (List Nat × String) :=
  files0.foldl (fun d f => (hashFn f.2, save_dir ++ "/" ++ f.1) :: d) []

/-- The downloader state at the start of the download phase: the files
already present, the preloaded hash index, an empty temp area. -/
def initState (hashFn : List Nat → List Nat) (save_dir : String)
    (files0 : List (String × List Nat)) : DLState :=
  { files := files0, hashes := preloadHashes hashFn save_dir files0, scratch := [] }

/-- Python `sorted` on strings: insertion of one element. -/
def insertSorted (u : String) : List String → List String
  | [] => [u]
  | v :: rest => if v < u then v :: insertSorted u rest else u :: v :: rest

/-- Python `sorted(file_urls)`: lexicographic sort of the URL set. -/
def sortUrls (l : List String) : List String := l.foldr insertSorted []

/-- `scrape_viwanda_save(page_url, save_dir, follow_pagination, max_pages)`
over a page network `netPage`, a file network `netFile`, a hash function
and an initial destination-directory listing `files0`. Returns the saved
path list together with the final directory state (the source mutates the
real directory; the state is returned so the effect can be stated). -/
def scrape_viwanda_save (netPage : String → Option HtmlDoc)
    (netFile : String → Option (List Nat)) (hashFn : List Nat → List Nat)
    (page_url save_dir : String) (follow : Bool) (maxPages : Nat)
    (files0 : List (String × List Nat)) : List String × DLState :=
  let w := walkAux netPage follow maxPages [page_url] [] [] 0
  runDownloads hashFn netFile "tmp" save_dir (sortUrls w.fileUrls)
    (initState hashFn save_dir files0)

/-! ### Definitions used to state the claims -/

/-- The contribution of one anchor to the file-link list: the resolved URL
when the anchor carries a href classified as a file link. -/
def anchorLink (page_url : String) (a : Anchor) : Option String :=
  match a.href with
  | some h => if _is_file_link h then some (urljoinW page_url h) else none
  | none => none

/-- Hrefs the spec says are never file links: empty, fragment-only, or the
script pseudo-link `javascript:void(0)`. -/
def excludedHref (h : String) : Bool :=
  h = "" || h.data.headD ' ' = '#' || h = "javascript:void(0)"

/-- An anchor whose href is an `excludedHref`. -/
def excludedAnchor (a : Anchor) : Bool :=
  match a.href with
  | some h => excludedHref h
  | none => false

/-- Spec-side reading of "contains the case-insensitive substring next":
some substring of `s` lowercases to `"next"`. -/
def containsNextCI (s : String) : Prop :=
  ∃ pre mid post, s.data = pre ++ mid ++ post ∧ mid.map Char.toLower = "next".data

/-- The download phase of `scrape_viwanda_save` over an explicit URL list,
instrumented per URL, starting from the preloaded initial state. -/
def harvestR (hashFn : List Nat → List Nat) (netFile : String → Option (List Nat))
    (save_dir : String) (urls : List String) (files0 : List (String × List Nat)) :
    List (String × String) × DLState :=
  runDownloadsR hashFn netFile "tmp" save_dir urls (initState hashFn save_dir files0)

/-- The files a download phase added to the directory (the directory only
grows, by prepending). -/
def newFiles (s : DLState) (files0 : List (String × List Nat)) :
    List (String × List Nat) :=
  s.files.take (s.files.length - files0.length)

/-! ## Theorems -/

/-! ### Link extraction: order and multiplicity (C3, C4) -/

/-- The accumulation loop of `extractFileLinks`, with an arbitrary initial
accumulator, is append of the per-anchor contributions. -/
theorem extractFileLinks_foldl (page_url : String) (anchors : List Anchor) :
    ∀ acc : List String,
      anchors.foldl (fun acc a =>
        match a.href with
        | some href => if _is_file_link href then acc ++ [urljoinW page_url href] else acc
        | none => acc) acc
      = acc ++ anchors.filterMap (anchorLink page_url) := by
  induction anchors with
  | nil => intro acc; simp
  | cons a rest ih =>
    intro acc
    cases h : a.href with
    | none => simp [List.foldl_cons, h, ih, List.filterMap_cons, anchorLink]
    | some href =>
      by_cases hf : _is_file_link href
      · simp [List.foldl_cons, h, hf, ih, List.filterMap_cons, anchorLink]
      · simp [List.foldl_cons, h, hf, ih, List.filterMap_cons, anchorLink]

/-- `extractFileLinks` is the per-anchor `filterMap`. -/
theorem extractFileLinks_eq_filterMap (page_url : String) (anchors : List Anchor) :
    extractFileLinks page_url anchors = anchors.filterMap (anchorLink page_url) := by
  simpa using extractFileLinks_foldl page_url anchors []

/-- C3 fails on the code: a page whose two anchors carry the same file href
yields the resolved URL twice — the extractor's output is not
ordered-unique. -/
theorem claim3_counterexample :
    extractFileLinks "https://e.com/docs/p"
        [⟨some "/a.pdf", none, false, ClassAttr.absent⟩,
         ⟨some "/a.pdf", none, false, ClassAttr.absent⟩]
      = ["https://e.com/a.pdf", "https://e.com/a.pdf"]
    ∧ ¬ (extractFileLinks "https://e.com/docs/p"
        [⟨some "/a.pdf", none, false, ClassAttr.absent⟩,
         ⟨some "/a.pdf", none, false, ClassAttr.absent⟩]).Nodup
    ∧ fetch_document_links_and_next
        (fun _ => some ⟨[], [⟨some "/a.pdf", none, false, ClassAttr.absent⟩,
          ⟨some "/a.pdf", none, false, ClassAttr.absent⟩]⟩) "https://e.com/docs/p"
      = some (["https://e.com/a.pdf", "https://e.com/a.pdf"], none) := by
  exact ⟨by decide, by decide, by decide⟩

/-- C3 (amended): the extractor returns, in document order, one resolved
absolute URL per qualifying anchor — an href occurring in several anchors
occurs as many times in the output (URL-level dedup happens later, in the
walk's `file_urls` set). -/
theorem claim3_links_in_document_order (page_url : String) (anchors : List Anchor) :
    extractFileLinks page_url anchors = anchors.filterMap (anchorLink page_url)
    ∧ (extractFileLinks page_url anchors).length
        = (anchors.filter (fun a => (anchorLink page_url a).isSome)).length := by
  refine ⟨extractFileLinks_eq_filterMap page_url anchors, ?_⟩
  rw [extractFileLinks_eq_filterMap page_url anchors]
  induction anchors with
  | nil => rfl
  | cons a rest ih =>
    cases h : anchorLink page_url a with
    | none => simpa [List.filterMap_cons, List.filter_cons, h] using ih
    | some l => simpa [List.filterMap_cons, List.filter_cons, h] using ih

/-- A href starting with `#` acquires no scheme (the first character is
not a letter). -/
theorem splitScheme_hash (t : List Char) : splitScheme ('#' :: t) "" = ("", '#' :: t) := by
  unfold splitScheme
  cases hfi : ('#' :: t).findIdx? (· = ':') with
  | none => rfl
  | some i =>
    simp only []
    rw [if_neg]
    rintro ⟨-, habs, -⟩
    simp at habs

/-- A href starting with `#` has no netloc. -/
theorem splitNetloc_hash (t : List Char) : splitNetloc ('#' :: t) = ("", '#' :: t) := by
  unfold splitNetloc
  rw [if_neg]
  simp [List.take_succ_cons]

/-- A href starting with `#` is all fragment. -/
theorem splitFragment_hash (t : List Char) :
    splitFragment ('#' :: t) = ([], String.mk t) := by
  unfold splitFragment
  rw [List.findIdx?_cons]
  simp

/-- The parsed path of a fragment-only href is empty. -/
theorem urlparseW_hash_path (s : String) : (urlparseW ("#" ++ s) "").path = "" := by
  have hd : ("#" ++ s).data = '#' :: s.data := by
    rw [String.data_append]; rfl
  unfold urlparseW
  simp only [hd, splitScheme_hash, splitNetloc_hash, splitFragment_hash]
  rfl

/-- A fragment-only href is never a file link (its parsed path is empty,
and no allow-listed extension is a suffix of the empty path). -/
theorem _is_file_link_fragment (s : String) : _is_file_link ("#" ++ s) = false := by
  have hne : ¬ ("#" ++ s) = "" := by
    intro h
    have h2 : ("#" ++ s).data = [] := by rw [h]
    rw [String.data_append] at h2
    simp at h2
  unfold _is_file_link
  rw [if_neg hne, urlparseW_hash_path]
  decide

/-- Data-level form of `_is_file_link_fragment`. -/
theorem _is_file_link_of_head_hash (h : String) (hh : h.data.headD ' ' = '#') :
    _is_file_link h = false := by
  obtain ⟨t, ht⟩ : ∃ t, h.data = '#' :: t := by
    cases hd : h.data with
    | nil => rw [hd] at hh; simp at hh
    | cons c rest =>
      rw [hd] at hh
      simp at hh
      exact ⟨rest, by rw [hh]⟩
  have hrepr : h = "#" ++ String.mk t := by
    apply String.ext
    rw [String.data_append, ht]
    rfl
  rw [hrepr]
  exact _is_file_link_fragment (String.mk t)

/-- An excluded anchor contributes nothing. -/
theorem anchorLink_none_of_excluded (page_url : String) (a : Anchor)
    (h : excludedAnchor a = true) : anchorLink page_url a = none := by
  unfold excludedAnchor at h
  cases ha : a.href with
  | none => rw [ha] at h; exact absurd h (by simp)
  | some href =>
    rw [ha] at h
    unfold excludedHref at h
    simp only [Bool.or_eq_true, decide_eq_true_eq] at h
    unfold anchorLink
    rw [ha]
    rcases h with (h1 | h2) | h3
    · rw [h1]; simp [_is_file_link]
    · simp [_is_file_link_of_head_hash href h2]
    · rw [h3]; simp [show _is_file_link "javascript:void(0)" = false from by decide]

/-- C4 fails on the code: a `javascript:` href whose parsed path ends in
an allow-listed extension IS classified as a file link and contributes to
the extractor's output. -/
theorem claim4_counterexample :
    _is_file_link "javascript:x.pdf" = true
    ∧ extractFileLinks "https://e.com/p"
        [⟨some "javascript:x.pdf", some "report.pdf", false, ClassAttr.absent⟩]
      = ["javascript:x.pdf"] := by
  exact ⟨by decide, by decide⟩

/-- C4 (amended): anchors with empty or fragment-only hrefs never
contribute a file link, regardless of visible text; a `javascript:` href
is excluded exactly when its parsed path does not end in an allow-listed
extension — in particular `javascript:void(0)` never contributes — and
removing all such anchors does not change the extractor's output. -/
theorem claim4_excluded_hrefs_never_contribute :
    _is_file_link "" = false
    ∧ (∀ s : String, _is_file_link ("#" ++ s) = false)
    ∧ _is_file_link "javascript:void(0)" = false
    ∧ (∀ (page_url : String) (anchors : List Anchor),
        extractFileLinks page_url (anchors.filter (fun a => ! excludedAnchor a))
          = extractFileLinks page_url anchors) := by
  refine ⟨by decide, _is_file_link_fragment, by decide, ?_⟩
  intro page_url anchors
  rw [extractFileLinks_eq_filterMap, extractFileLinks_eq_filterMap]
  induction anchors with
  | nil => rfl
  | cons a rest ih =>
    by_cases hx : excludedAnchor a = true
    · rw [List.filter_cons_of_neg (by simp [hx]), ih, List.filterMap_cons,
        anchorLink_none_of_excluded page_url a hx]
    · rw [List.filter_cons_of_pos (by simp [hx]), List.filterMap_cons, List.filterMap_cons, ih]

theorem infix_map_toLower_iff (pat l : List Char) :
    pat <:+: l.map Char.toLower ↔
      ∃ pre mid post, l = pre ++ mid ++ post ∧ mid.map Char.toLower = pat := by
  constructor
  · rintro ⟨a, b, hab⟩
    obtain ⟨l₁, l₂, rfl, h2, h3⟩ := List.map_eq_append_iff.mp hab.symm
    obtain ⟨l₁₁, l₁₂, rfl, h4, h5⟩ := List.map_eq_append_iff.mp h2
    exact ⟨l₁₁, l₁₂, l₂, rfl, h5⟩
  · rintro ⟨pre, mid, post, rfl, hmid⟩
    exact ⟨pre.map Char.toLower, post.map Char.toLower, by simp [hmid]⟩

theorem prefix_split_at_sep (c : Char) :
    ∀ (a pat b : List Char), c ∉ pat → pat <+: a ++ c :: b → pat <+: a := by
  intro a
  induction a with
  | nil =>
    intro pat b hc hp
    cases pat with
    | nil => exact List.nil_prefix
    | cons p ps =>
      exfalso
      rw [List.nil_append] at hp
      have hpc := (List.cons_prefix_cons.mp hp).1
      exact hc (hpc ▸ List.mem_cons_self _ _)
  | cons x a' ih =>
    intro pat b hc hp
    cases pat with
    | nil => exact List.nil_prefix
    | cons p ps =>
      rw [List.cons_append] at hp
      obtain ⟨hpx, hps⟩ := List.cons_prefix_cons.mp hp
      exact List.cons_prefix_cons.mpr
        ⟨hpx, ih ps b (fun hmem => hc (List.mem_cons_of_mem _ hmem)) hps⟩

theorem infix_split_at_sep (pat : List Char) (c : Char) (hne : pat ≠ [])
    (hc : c ∉ pat) : ∀ a b : List Char, pat <:+: a ++ c :: b → pat <:+: a ∨ pat <:+: b := by
  intro a
  induction a with
  | nil =>
    intro b h
    rw [List.nil_append] at h
    rcases List.infix_cons_iff.mp h with hp | hi
    · exact absurd (List.prefix_nil.mp (prefix_split_at_sep c [] pat b hc
        (by rw [List.nil_append]; exact hp))) hne
    · exact Or.inr hi
  | cons x a' ih =>
    intro b h
    rw [List.cons_append] at h
    rcases List.infix_cons_iff.mp h with hp | hi
    · left
      exact (prefix_split_at_sep c (x :: a') pat b hc
        (by rw [List.cons_append]; exact hp)).isInfix
    · rcases ih b hi with h1 | h2
      · exact Or.inl (List.infix_cons_iff.mpr (Or.inr h1))
      · exact Or.inr h2

theorem infix_joinSpace_iff (pat : List Char) (hne : pat ≠ []) (hsp : ' ' ∉ pat) :
    ∀ ts : List String, (pat <:+: (joinSpace ts).data ↔ ∃ t ∈ ts, pat <:+: t.data) := by
  intro ts
  induction ts with
  | nil =>
    constructor
    · intro h
      have h2 : pat <:+: ([] : List Char) := h
      exact absurd (List.infix_nil.mp h2) hne
    · rintro ⟨t, ht, -⟩
      exact absurd ht (List.not_mem_nil t)
  | cons t rest ih =>
    cases rest with
    | nil => simp [joinSpace]
    | cons r rs =>
      have hd : (joinSpace (t :: r :: rs)).data
          = t.data ++ ' ' :: (joinSpace (r :: rs)).data := by
        show (t ++ " " ++ joinSpace (r :: rs)).data = _
        rw [String.data_append, String.data_append]
        simp
      constructor
      · intro h
        rw [hd] at h
        rcases infix_split_at_sep pat ' ' hne hsp t.data _ h with h1 | h2
        · exact ⟨t, by simp, h1⟩
        · obtain ⟨t', ht', hi⟩ := ih.mp h2
          exact ⟨t', by simp [ht'], hi⟩
      · rintro ⟨t', ht', hi⟩
        rw [hd]
        rcases List.mem_cons.mp ht' with rfl | hmem
        · obtain ⟨u, v, huv⟩ := hi
          exact ⟨u, v ++ ' ' :: (joinSpace (r :: rs)).data, by rw [← huv]; simp⟩
        · obtain ⟨u, v, huv⟩ := ih.mpr ⟨t', hmem, hi⟩
          exact ⟨t.data ++ ' ' :: u, v, by rw [← huv]; simp⟩

theorem lowerStr_joinSpace (ts : List String) :
    (lowerStr (joinSpace ts)).data = (joinSpace (ts.map lowerStr)).data := by
  induction ts with
  | nil => rfl
  | cons t rest ih =>
    cases rest with
    | nil => rfl
    | cons r rs =>
      have ih' : (joinSpace (r :: rs)).data.map Char.toLower
          = (joinSpace ((r :: rs).map lowerStr)).data := ih
      show (lowerStr (t ++ " " ++ joinSpace (r :: rs))).data
          = (lowerStr t ++ " " ++ joinSpace ((r :: rs).map lowerStr)).data
      simp only [lowerStr, String.data_append, List.map_append, ih']
      simp

/-- C8: next-page class matching is total over all class-attribute shapes
(absent, plain string, token list) by construction; an absent class never
qualifies; a plain string qualifies iff it contains the case-insensitive
substring "next"; a token list qualifies iff some token does (the
space-joined string contains "next" iff a single token contains it, since
"next" has no space). -/
theorem claim8_next_class_matching :
    has_next_class ClassAttr.absent = false
    ∧ (∀ s : String, has_next_class (ClassAttr.str s) = true ↔ containsNextCI s)
    ∧ (∀ ts : List String,
        has_next_class (ClassAttr.tokens ts) = true ↔ ∃ t ∈ ts, containsNextCI t) := by
  refine ⟨rfl, ?_, ?_⟩
  · intro s
    show decide ("next".data <:+: (lowerStr s).data) = true ↔ _
    rw [decide_eq_true_eq]
    exact infix_map_toLower_iff "next".data s.data
  · intro ts
    show decide ("next".data <:+: (lowerStr (joinSpace ts)).data) = true ↔ _
    rw [decide_eq_true_eq, show (lowerStr (joinSpace ts)).data
        = (joinSpace (ts.map lowerStr)).data from lowerStr_joinSpace ts,
      infix_joinSpace_iff "next".data (by decide) (by decide) (ts.map lowerStr)]
    constructor
    · rintro ⟨t', ht', hi⟩
      obtain ⟨t, htm, rfl⟩ := List.mem_map.mp ht'
      exact ⟨t, htm, (infix_map_toLower_iff "next".data t.data).mp hi⟩
    · rintro ⟨t, htm, hci⟩
      exact ⟨lowerStr t, List.mem_map_of_mem _ htm,
        (infix_map_toLower_iff "next".data t.data).mpr hci⟩

/-- C8 witness: a concrete token list whose second token contains "NeXt". -/
theorem claim8_witness :
    has_next_class (ClassAttr.tokens ["page", "NeXt-btn"]) = true := by
  exact (claim8_next_class_matching.2.2 ["page", "NeXt-btn"]).mpr
    ⟨"NeXt-btn", by simp, [], ['N', 'e', 'X', 't'], ['-', 'b', 't', 'n'], by decide, by decide⟩

/-- Reaching the page cap (or an empty queue) ends the walk, returning the
accumulated visited set and file-URL set. -/
theorem walkAux_cap (net : String → Option HtmlDoc) (follow : Bool) (maxPages : Nat)
    (q vis f : List String) (crawled : Nat) (h : maxPages ≤ crawled) :
    walkAux net follow maxPages q vis f crawled = ⟨[], vis, f⟩ := by
  cases q with
  | nil => simp [walkAux]
  | cons u rest => simp [walkAux, h]

/-- An already-visited head is dequeued and skipped. -/
theorem walkAux_skip (net : String → Option HtmlDoc) (follow : Bool) (maxPages : Nat)
    (url : String) (rest vis f : List String) (crawled : Nat)
    (h1 : ¬ maxPages ≤ crawled) (h2 : url ∈ vis) :
    walkAux net follow maxPages (url :: rest) vis f crawled
      = walkAux net follow maxPages rest vis f crawled := by
  simp [walkAux, h1, h2]

/-- A fresh head whose fetch raises is marked visited, counted, and
contributes nothing. -/
theorem walkAux_fail (net : String → Option HtmlDoc) (follow : Bool) (maxPages : Nat)
    (url : String) (rest vis f : List String) (crawled : Nat)
    (h1 : ¬ maxPages ≤ crawled) (h2 : url ∉ vis)
    (h3 : fetch_document_links_and_next net url = none) :
    walkAux net follow maxPages (url :: rest) vis f crawled
      = ⟨url :: (walkAux net follow maxPages rest (url :: vis) f (crawled + 1)).trace,
         (walkAux net follow maxPages rest (url :: vis) f (crawled + 1)).visited,
         (walkAux net follow maxPages rest (url :: vis) f (crawled + 1)).fileUrls⟩ := by
  simp [walkAux, h1, h2, h3]

/-- A fresh head fetched successfully with no next link: its links are
added and the walk continues on the remaining queue. -/
theorem walkAux_page_none (net : String → Option HtmlDoc) (follow : Bool) (maxPages : Nat)
    (url : String) (rest vis f : List String) (crawled : Nat) (links : List String)
    (h1 : ¬ maxPages ≤ crawled) (h2 : url ∉ vis)
    (h3 : fetch_document_links_and_next net url = some (links, none)) :
    walkAux net follow maxPages (url :: rest) vis f crawled
      = ⟨url :: (walkAux net follow maxPages rest (url :: vis)
            (links.foldl (fun acc l => if l ∈ acc then acc else acc ++ [l]) f)
            (crawled + 1)).trace,
         (walkAux net follow maxPages rest (url :: vis)
            (links.foldl (fun acc l => if l ∈ acc then acc else acc ++ [l]) f)
            (crawled + 1)).visited,
         (walkAux net follow maxPages rest (url :: vis)
            (links.foldl (fun acc l => if l ∈ acc then acc else acc ++ [l]) f)
            (crawled + 1)).fileUrls⟩ := by
  simp [walkAux, h1, h2, h3]

/-- A fresh head fetched successfully with a next link: its links are
added and the next URL is enqueued at the back when pagination is on, the
URL is nonempty and not yet visited. -/
theorem walkAux_page_some (net : String → Option HtmlDoc) (follow : Bool) (maxPages : Nat)
    (url : String) (rest vis f : List String) (crawled : Nat) (links : List String)
    (nu : String) (h1 : ¬ maxPages ≤ crawled) (h2 : url ∉ vis)
    (h3 : fetch_document_links_and_next net url = some (links, some nu)) :
    walkAux net follow maxPages (url :: rest) vis f crawled
      = ⟨url :: (walkAux net follow maxPages
            (if follow = true ∧ nu ≠ "" ∧ nu ∉ url :: vis then rest ++ [nu] else rest)
            (url :: vis)
            (links.foldl (fun acc l => if l ∈ acc then acc else acc ++ [l]) f)
            (crawled + 1)).trace,
         (walkAux net follow maxPages
            (if follow = true ∧ nu ≠ "" ∧ nu ∉ url :: vis then rest ++ [nu] else rest)
            (url :: vis)
            (links.foldl (fun acc l => if l ∈ acc then acc else acc ++ [l]) f)
            (crawled + 1)).visited,
         (walkAux net follow maxPages
            (if follow = true ∧ nu ≠ "" ∧ nu ∉ url :: vis then rest ++ [nu] else rest)
            (url :: vis)
            (links.foldl (fun acc l => if l ∈ acc then acc else acc ++ [l]) f)
            (crawled + 1)).fileUrls⟩ := by
  simp [walkAux, h1, h2, h3]

/-- Prepending a page not in the visited set keeps the trace duplicate
free. -/
theorem consFreshAux {t : List String} {url : String} {vis : List String}
    (hv : url ∉ vis) (h1 : t.Nodup) (h2 : ∀ u ∈ t, u ∉ url :: vis) :
    (url :: t).Nodup ∧ ∀ u ∈ url :: t, u ∉ vis := by
  refine ⟨List.nodup_cons.mpr ⟨fun hmem => (h2 url hmem) (List.mem_cons_self _ _), h1⟩, ?_⟩
  intro v hvm
  rcases List.mem_cons.mp hvm with rfl | hv2
  · exact hv
  · exact fun hvv => (h2 v hv2) (List.mem_cons_of_mem _ hvv)

/-- The processed-pages trace is duplicate-free and disjoint from the
starting visited set (by induction on the walk's combined measure). -/
theorem walkAux_fresh_aux (net : String → Option HtmlDoc) (follow : Bool) (maxPages : Nat) :
    ∀ (n : Nat) (q vis f : List String) (crawled : Nat),
      maxPages - crawled + q.length ≤ n →
      (walkAux net follow maxPages q vis f crawled).trace.Nodup
      ∧ ∀ u ∈ (walkAux net follow maxPages q vis f crawled).trace, u ∉ vis := by
  intro n
  induction n with
  | zero =>
    intro q vis f crawled hn
    have hq : q = [] := by
      cases q with
      | nil => rfl
      | cons a l => simp at hn
    subst hq
    simp [walkAux]
  | succ n ih =>
    intro q vis f crawled hn
    cases q with
    | nil => simp [walkAux]
    | cons url rest =>
      by_cases hcap : maxPages ≤ crawled
      · rw [walkAux_cap net follow maxPages _ _ _ _ hcap]
        simp
      · by_cases hv : url ∈ vis
        · rw [walkAux_skip net follow maxPages url rest vis f crawled hcap hv]
          exact ih rest vis f crawled (by simp at hn ⊢; omega)
        · cases hf : fetch_document_links_and_next net url with
          | none =>
            rw [walkAux_fail net follow maxPages url rest vis f crawled hcap hv hf]
            have ih2 := ih rest (url :: vis) f (crawled + 1) (by simp at hn ⊢; omega)
            exact consFreshAux hv ih2.1 ih2.2
          | some p =>
            obtain ⟨links, nextU⟩ := p
            cases nextU with
            | none =>
              rw [walkAux_page_none net follow maxPages url rest vis f crawled links hcap hv hf]
              have ih2 := ih rest (url :: vis)
                (links.foldl (fun acc l => if l ∈ acc then acc else acc ++ [l]) f)
                (crawled + 1) (by simp at hn ⊢; omega)
              exact consFreshAux hv ih2.1 ih2.2
            | some nu =>
              rw [walkAux_page_some net follow maxPages url rest vis f crawled links nu hcap hv hf]
              by_cases hq : follow = true ∧ nu ≠ "" ∧ nu ∉ url :: vis
              · rw [if_pos hq]
                have ih2 := ih (rest ++ [nu]) (url :: vis)
                  (links.foldl (fun acc l => if l ∈ acc then acc else acc ++ [l]) f)
                  (crawled + 1) (by simp at hn ⊢; omega)
                exact consFreshAux hv ih2.1 ih2.2
              · rw [if_neg hq]
                have ih2 := ih rest (url :: vis)
                  (links.foldl (fun acc l => if l ∈ acc then acc else acc ++ [l]) f)
                  (crawled + 1) (by simp at hn ⊢; omega)
                exact consFreshAux hv ih2.1 ih2.2

/-- `walkAux_fresh_aux` at the exact measure. -/
theorem walkAux_trace_fresh (net : String → Option HtmlDoc) (follow : Bool) (maxPages : Nat)
    (q vis f : List String) (crawled : Nat) :
    (walkAux net follow maxPages q vis f crawled).trace.Nodup
    ∧ ∀ u ∈ (walkAux net follow maxPages q vis f crawled).trace, u ∉ vis :=
  walkAux_fresh_aux net follow maxPages (maxPages - crawled + q.length) q vis f crawled
    (Nat.le_refl _)

/-- The walk processes at most `max_pages - pages_crawled` further
pages. -/
theorem walkAux_length_aux (net : String → Option HtmlDoc) (follow : Bool) (maxPages : Nat) :
    ∀ (n : Nat) (q vis f : List String) (crawled : Nat),
      maxPages - crawled + q.length ≤ n →
      (walkAux net follow maxPages q vis f crawled).trace.length ≤ maxPages - crawled := by
  intro n
  induction n with
  | zero =>
    intro q vis f crawled hn
    have hq : q = [] := by
      cases q with
      | nil => rfl
      | cons a l => simp at hn
    subst hq
    simp [walkAux]
  | succ n ih =>
    intro q vis f crawled hn
    cases q with
    | nil => simp [walkAux]
    | cons url rest =>
      by_cases hcap : maxPages ≤ crawled
      · rw [walkAux_cap net follow maxPages _ _ _ _ hcap]
        simp
      · by_cases hv : url ∈ vis
        · rw [walkAux_skip net follow maxPages url rest vis f crawled hcap hv]
          exact ih rest vis f crawled (by simp at hn ⊢; omega)
        · cases hf : fetch_document_links_and_next net url with
          | none =>
            rw [walkAux_fail net follow maxPages url rest vis f crawled hcap hv hf]
            have ih2 := ih rest (url :: vis) f (crawled + 1) (by simp at hn ⊢; omega)
            simp only [List.length_cons]
            omega
          | some p =>
            obtain ⟨links, nextU⟩ := p
            cases nextU with
            | none =>
              rw [walkAux_page_none net follow maxPages url rest vis f crawled links hcap hv hf]
              have ih2 := ih rest (url :: vis)
                (links.foldl (fun acc l => if l ∈ acc then acc else acc ++ [l]) f)
                (crawled + 1) (by simp at hn ⊢; omega)
              simp only [List.length_cons]
              omega
            | some nu =>
              rw [walkAux_page_some net follow maxPages url rest vis f crawled links nu hcap hv hf]
              by_cases hq : follow = true ∧ nu ≠ "" ∧ nu ∉ url :: vis
              · rw [if_pos hq]
                have ih2 := ih (rest ++ [nu]) (url :: vis)
                  (links.foldl (fun acc l => if l ∈ acc then acc else acc ++ [l]) f)
                  (crawled + 1) (by simp at hn ⊢; omega)
                simp only [List.length_cons]
                omega
              · rw [if_neg hq]
                have ih2 := ih rest (url :: vis)
                  (links.foldl (fun acc l => if l ∈ acc then acc else acc ++ [l]) f)
                  (crawled + 1) (by simp at hn ⊢; omega)
                simp only [List.length_cons]
                omega

/-- C5: the frontier walk always terminates (it is a total function); it
processes each page URL at most once (the trace is duplicate-free),
processes at most `max_pages` pages in total, reaching the cap ends the
walk returning the accumulated sets, and with `max_pages = 1` only the
start page is processed even when a next link exists. -/
theorem claim5_walk_terminates_bounded (netPage : String → Option HtmlDoc)
    (follow : Bool) (start : String) (maxPages : Nat) :
    (walkAux netPage follow maxPages [start] [] [] 0).trace.Nodup
    ∧ (walkAux netPage follow maxPages [start] [] [] 0).trace.length ≤ maxPages
    ∧ (∀ (q vis f : List String) (crawled : Nat), maxPages ≤ crawled →
        walkAux netPage follow maxPages q vis f crawled = ⟨[], vis, f⟩)
    ∧ (maxPages = 1 → (walkAux netPage follow maxPages [start] [] [] 0).trace = [start]) := by
  have hlen : (walkAux netPage follow maxPages [start] [] [] 0).trace.length ≤ maxPages := by
    have h := walkAux_length_aux netPage follow maxPages (maxPages + 1) [start] [] [] 0 (by simp)
    omega
  refine ⟨(walkAux_trace_fresh netPage follow maxPages [start] [] [] 0).1, hlen,
    fun q vis f c h => walkAux_cap netPage follow maxPages q vis f c h, ?_⟩
  rintro rfl
  cases hf : fetch_document_links_and_next netPage start with
  | none =>
    rw [walkAux_fail netPage follow 1 start [] [] [] 0 (by omega) (by simp) hf]
    simp [walkAux]
  | some p =>
    obtain ⟨links, nextU⟩ := p
    cases nextU with
    | none =>
      rw [walkAux_page_none netPage follow 1 start [] [] [] 0 links (by omega) (by simp) hf]
      simp [walkAux]
    | some nu =>
      rw [walkAux_page_some netPage follow 1 start [] [] [] 0 links nu (by omega) (by simp) hf]
      rw [walkAux_cap netPage follow 1 _ _ _ 1 (Nat.le_refl 1)]

/-- C5 witness: with `max_pages = 1` and a page that does have a next
anchor, only the start page is processed. -/
theorem claim5_witness :
    (walkAux (fun _ => some ⟨[], [⟨some "/p?page=2", some "Next", false, ClassAttr.absent⟩]⟩)
        true 1 ["https://e.com/p"] [] [] 0).trace = ["https://e.com/p"] :=
  (claim5_walk_terminates_bounded _ true "https://e.com/p" 1).2.2.2 rfl

/-- C7: a listing page whose fetch fails contributes no file links and no
next-page URL; the walk continues with the remaining queue, with the
accumulated file-URL set passed through unchanged, the failed page only
being marked visited and counted. -/
theorem claim7_page_fetch_failure_skipped (netPage : String → Option HtmlDoc)
    (follow : Bool) (maxPages : Nat) (url : String) (rest vis fileUrls : List String)
    (crawled : Nat) (hv : url ∉ vis) (hc : crawled < maxPages)
    (hfail : netPage url = none) :
    walkAux netPage follow maxPages (url :: rest) vis fileUrls crawled
      = ⟨url :: (walkAux netPage follow maxPages rest (url :: vis) fileUrls (crawled + 1)).trace,
         (walkAux netPage follow maxPages rest (url :: vis) fileUrls (crawled + 1)).visited,
         (walkAux netPage follow maxPages rest (url :: vis) fileUrls (crawled + 1)).fileUrls⟩ :=
  walkAux_fail netPage follow maxPages url rest vis fileUrls crawled (Nat.not_le.mpr hc) hv
    (by simp [fetch_document_links_and_next, hfail])

/-- C7 witness: a concrete failing fetch of the head of a two-page
queue. -/
theorem claim7_witness :
    walkAux (fun _ => none) true 3 ["p", "q"] [] [] 0
      = ⟨"p" :: (walkAux (fun _ => none) true 3 ["q"] ["p"] [] 1).trace,
         (walkAux (fun _ => none) true 3 ["q"] ["p"] [] 1).visited,
         (walkAux (fun _ => none) true 3 ["q"] ["p"] [] 1).fileUrls⟩ :=
  claim7_page_fetch_failure_skipped (fun _ => none) true 3 "p" ["q"] [] [] 0
    (by simp) (by omega) rfl

/-- C9: a dequeued, not-previously-visited page consumes one unit of the
`max_pages` budget even when its fetch fails: under an all-failing network
the walk still processes exactly the first `max_pages - pages_crawled`
queued pages, so failed pages reduce the number of further pages that can
be processed. -/
theorem claim9_failed_pages_consume_budget (netPage : String → Option HtmlDoc)
    (follow : Bool) (maxPages : Nat) (fileUrls : List String) :
    ∀ (q vis : List String) (crawled : Nat),
      (∀ u, netPage u = none) → q.Nodup → (∀ u ∈ q, u ∉ vis) →
      (walkAux netPage follow maxPages q vis fileUrls crawled).trace
        = q.take (maxPages - crawled) := by
  intro q
  induction q with
  | nil =>
    intro vis crawled _ _ _
    simp [walkAux]
  | cons u rest ih =>
    intro vis crawled hall hnd hdisj
    by_cases hcap : maxPages ≤ crawled
    · rw [walkAux_cap netPage follow maxPages _ _ _ _ hcap, Nat.sub_eq_zero_of_le hcap]
      simp
    · have hfu : fetch_document_links_and_next netPage u = none := by
        simp [fetch_document_links_and_next, hall u]
      rw [walkAux_fail netPage follow maxPages u rest vis fileUrls crawled hcap
        (hdisj u (List.mem_cons_self _ _)) hfu]
      have hdisj2 : ∀ v ∈ rest, v ∉ u :: vis := by
        intro v hv
        simp only [List.mem_cons]
        push_neg
        refine ⟨fun hvu => (List.nodup_cons.mp hnd).1 (hvu ▸ hv), hdisj v (List.mem_cons_of_mem _ hv)⟩
      show u :: (walkAux netPage follow maxPages rest (u :: vis) fileUrls (crawled + 1)).trace = _
      rw [ih (u :: vis) (crawled + 1) hall (List.Nodup.of_cons hnd) hdisj2]
      have hms : maxPages - crawled = (maxPages - (crawled + 1)) + 1 := by omega
      rw [hms, List.take_succ_cons]

/-- C9 witness: three failing pages, budget two — only the first two are
processed. -/
theorem claim9_witness :
    (walkAux (fun _ => none) false 2 ["a", "b", "c"] [] [] 0).trace
      = List.take (2 - 0) ["a", "b", "c"] :=
  claim9_failed_pages_consume_budget (fun _ => none) false 2 [] ["a", "b", "c"] [] 0
    (fun u => rfl) (by decide) (by simp)

/-- One-step unfolding of dict lookup. -/
theorem dictLookup_cons (kv : List Nat × String) (d : List (List Nat × String)) (k : List Nat) :
    dictLookup (kv :: d) k = if kv.1 = k then some kv.2 else dictLookup d k := rfl

/-- Lookup skips a block of bindings with different keys. -/
theorem dictLookup_append_not_key (A d : List (List Nat × String)) (k : List Nat)
    (h : ∀ kv ∈ A, kv.1 ≠ k) : dictLookup (A ++ d) k = dictLookup d k := by
  induction A with
  | nil => rfl
  | cons kv A2 ih =>
    rw [List.cons_append, dictLookup_cons, if_neg (h kv (List.mem_cons_self _ _))]
    exact ih (fun kv2 hm => h kv2 (List.mem_cons_of_mem _ hm))

/-- A failed lookup means no binding carries the key. -/
theorem dictLookup_none_forall (d : List (List Nat × String)) (k : List Nat)
    (h : dictLookup d k = none) : ∀ kv ∈ d, kv.1 ≠ k := by
  induction d with
  | nil => intro kv hm; exact absurd hm (List.not_mem_nil kv)
  | cons kv2 d2 ih =>
    rw [dictLookup_cons] at h
    intro kv hm
    rcases List.mem_cons.mp hm with rfl | hm2
    · intro hk
      rw [if_pos hk] at h
      exact Option.noConfusion h
    · by_cases hk2 : kv2.1 = k
      · rw [if_pos hk2] at h
        exact Option.noConfusion h
      · rw [if_neg hk2] at h
        exact ih h kv hm2

/-- A failed lookup through a cons splits into head and tail facts. -/
theorem dictLookup_cons_none {k0 : List Nat} {v0 : String} {d : List (List Nat × String)}
    {k : List Nat} (h : dictLookup ((k0, v0) :: d) k = none) :
    k0 ≠ k ∧ dictLookup d k = none := by
  rw [dictLookup_cons] at h
  by_cases hk : k0 = k
  · rw [if_pos hk] at h
    exact Option.noConfusion h
  · rw [if_neg hk] at h
    exact ⟨hk, h⟩

/-- `_download_and_dedupe` when the download raises: no result, the
directory and the index are untouched, the temp file is unlinked. -/
theorem dl_fail (hashFn : List Nat → List Nat) (netFile : String → Option (List Nat))
    (tmpName url save_dir : String) (s : DLState) (hn : netFile url = none) :
    _download_and_dedupe hashFn netFile tmpName url save_dir s
      = (none, { s with scratch := fsErase (fsSet s.scratch tmpName []) tmpName }) := by
  simp [_download_and_dedupe, hn]

/-- `_download_and_dedupe` on a content-hash hit: the indexed path is
returned, nothing is written, the temp file is unlinked. -/
theorem dl_dup (hashFn : List Nat → List Nat) (netFile : String → Option (List Nat))
    (tmpName url save_dir : String) (s : DLState) (content : List Nat) (p : String)
    (hn : netFile url = some content)
    (hl : dictLookup s.hashes (hashFn content) = some p) :
    _download_and_dedupe hashFn netFile tmpName url save_dir s
      = (some p, { s with
          scratch := fsErase (fsSet (fsSet s.scratch tmpName []) tmpName content) tmpName }) := by
  simp [_download_and_dedupe, hn, hl]

/-- `_download_and_dedupe` on a fresh hash: the temp file is moved to a
collision-free target and the hash is registered. -/
theorem dl_new (hashFn : List Nat → List Nat) (netFile : String → Option (List Nat))
    (tmpName url save_dir : String) (s : DLState) (content : List Nat)
    (hn : netFile url = some content)
    (hl : dictLookup s.hashes (hashFn content) = none) :
    _download_and_dedupe hashFn netFile tmpName url save_dir s
      = (some (save_dir ++ "/" ++ freshTarget s.files (_safe_filename_from_url url)),
         { files := (freshTarget s.files (_safe_filename_from_url url), content) :: s.files,
           hashes := (hashFn content,
             save_dir ++ "/" ++ freshTarget s.files (_safe_filename_from_url url)) :: s.hashes,
           scratch := fsErase (fsSet (fsSet s.scratch tmpName []) tmpName content) tmpName }) := by
  simp [_download_and_dedupe, hn, hl]

/-- Main invariant of the download loop: the directory grows by a block
`nf` of new files; the index grows by exactly one binding per new file,
mapping its hash to its path; every new file's hash was absent from the
starting index; the new hashes are pairwise distinct; the result list has
exactly one entry per successfully fetched URL, in order; and every
recorded path is the final index's binding for that URL's content hash. -/
theorem runDownloadsR_spec (hashFn : List Nat → List Nat)
    (netFile : String → Option (List Nat)) (tmpName save_dir : String) :
    ∀ (urls : List String) (s : DLState),
      ∃ nf : List (String × List Nat),
        (runDownloadsR hashFn netFile tmpName save_dir urls s).2.files = nf ++ s.files
        ∧ (runDownloadsR hashFn netFile tmpName save_dir urls s).2.hashes
            = nf.map (fun f => (hashFn f.2, save_dir ++ "/" ++ f.1)) ++ s.hashes
        ∧ (∀ f ∈ nf, dictLookup s.hashes (hashFn f.2) = none)
        ∧ (nf.map (fun f => hashFn f.2)).Nodup
        ∧ (runDownloadsR hashFn netFile tmpName save_dir urls s).1.map Prod.fst
            = urls.filter (fun u => (netFile u).isSome)
        ∧ (∀ u p, (u, p) ∈ (runDownloadsR hashFn netFile tmpName save_dir urls s).1 →
            ∃ c, netFile u = some c
              ∧ dictLookup (runDownloadsR hashFn netFile tmpName save_dir urls s).2.hashes
                  (hashFn c) = some p) := by
  intro urls
  induction urls with
  | nil =>
    intro s
    exact ⟨[], rfl, rfl, by simp, by simp, rfl, by simp [runDownloadsR]⟩
  | cons url rest ih =>
    intro s
    cases hn : netFile url with
    | none =>
      have hrun : runDownloadsR hashFn netFile tmpName save_dir (url :: rest) s
          = runDownloadsR hashFn netFile tmpName save_dir rest
              { s with scratch := fsErase (fsSet s.scratch tmpName []) tmpName } := by
        simp [runDownloadsR, dl_fail hashFn netFile tmpName url save_dir s hn]
      obtain ⟨nf, h1, h2, h3, h4, h5, h6⟩ :=
        ih { s with scratch := fsErase (fsSet s.scratch tmpName []) tmpName }
      refine ⟨nf, ?_, ?_, h3, h4, ?_, ?_⟩
      · rw [hrun]; exact h1
      · rw [hrun]; exact h2
      · rw [hrun, h5, List.filter_cons_of_neg (by simp [hn])]
      · rw [hrun]; exact h6
    | some content =>
      cases hl : dictLookup s.hashes (hashFn content) with
      | some p =>
        have hstep := dl_dup hashFn netFile tmpName url save_dir s content p hn hl
        have hrun : runDownloadsR hashFn netFile tmpName save_dir (url :: rest) s
            = ((url, p) :: (runDownloadsR hashFn netFile tmpName save_dir rest { s with scratch := fsErase (fsSet (fsSet s.scratch tmpName []) tmpName content) tmpName }).1, (runDownloadsR hashFn netFile tmpName save_dir rest { s with scratch := fsErase (fsSet (fsSet s.scratch tmpName []) tmpName content) tmpName }).2) := by
          simp [runDownloadsR, hstep]
        obtain ⟨nf, h1, h2, h3, h4, h5, h6⟩ :=
          ih { s with scratch := fsErase (fsSet (fsSet s.scratch tmpName []) tmpName content) tmpName }
        have hnfk : ∀ kv ∈ nf.map (fun f => (hashFn f.2, save_dir ++ "/" ++ f.1)),
            kv.1 ≠ hashFn content := by
          intro kv hkv
          obtain ⟨f, hf, rfl⟩ := List.mem_map.mp hkv
          intro he
          have he2 : hashFn f.2 = hashFn content := he
          have hcon := h3 f hf
          rw [he2, hl] at hcon
          exact Option.noConfusion hcon
        refine ⟨nf, ?_, ?_, h3, h4, ?_, ?_⟩
        · rw [hrun]; exact h1
        · rw [hrun]; exact h2
        · rw [hrun]
          simp only [List.map_cons]
          rw [h5, List.filter_cons_of_pos (by simp [hn])]
        · rw [hrun]
          intro u q hm
          rcases List.mem_cons.mp hm with he | hm2
          · simp only [Prod.mk.injEq] at he
            obtain ⟨rfl, rfl⟩ := he
            refine ⟨content, hn, ?_⟩
            rw [h2, dictLookup_append_not_key _ _ _ hnfk]
            exact hl
          · exact h6 u q hm2
      | none =>
        have hstep := dl_new hashFn netFile tmpName url save_dir s content hn hl
        generalize hT : freshTarget s.files (_safe_filename_from_url url) = T at hstep
        have hrun : runDownloadsR hashFn netFile tmpName save_dir (url :: rest) s
            = ((url, save_dir ++ "/" ++ T) :: (runDownloadsR hashFn netFile tmpName save_dir rest ⟨(T, content) :: s.files, (hashFn content, save_dir ++ "/" ++ T) :: s.hashes, fsErase (fsSet (fsSet s.scratch tmpName []) tmpName content) tmpName⟩).1, (runDownloadsR hashFn netFile tmpName save_dir rest ⟨(T, content) :: s.files, (hashFn content, save_dir ++ "/" ++ T) :: s.hashes, fsErase (fsSet (fsSet s.scratch tmpName []) tmpName content) tmpName⟩).2) := by
          simp [runDownloadsR, hstep]
        obtain ⟨nf, h1, h2, h3, h4, h5, h6⟩ :=
          ih ⟨(T, content) :: s.files, (hashFn content, save_dir ++ "/" ++ T) :: s.hashes, fsErase (fsSet (fsSet s.scratch tmpName []) tmpName content) tmpName⟩
        have h3s : ∀ f ∈ nf, hashFn content ≠ hashFn f.2 ∧ dictLookup s.hashes (hashFn f.2) = none := by
          intro f hf
          exact dictLookup_cons_none (h3 f hf)
        have hnfk : ∀ kv ∈ nf.map (fun f => (hashFn f.2, save_dir ++ "/" ++ f.1)),
            kv.1 ≠ hashFn content := by
          intro kv hkv
          obtain ⟨f, hf, rfl⟩ := List.mem_map.mp hkv
          exact fun he => (h3s f hf).1 he.symm
        refine ⟨nf ++ [(T, content)], ?_, ?_, ?_, ?_, ?_, ?_⟩
        · rw [hrun]
          simp only []
          rw [h1, List.append_assoc]
          rfl
        · rw [hrun]
          simp only []
          rw [h2, List.map_append, List.append_assoc]
          rfl
        · intro f hf
          rcases List.mem_append.mp hf with hf1 | hf2
          · exact (h3s f hf1).2
          · rw [List.mem_singleton.mp hf2]
            exact hl
        · rw [List.map_append, List.nodup_append]
          refine ⟨h4, by simp, ?_⟩
          intro x hx
          obtain ⟨f, hf, rfl⟩ := List.mem_map.mp hx
          simp only [List.map_cons, List.map_nil, List.mem_singleton]
          exact fun he => (h3s f hf).1 he.symm
        · rw [hrun]
          simp only [List.map_cons]
          rw [h5, List.filter_cons_of_pos (by simp [hn])]
        · rw [hrun]
          intro u q hm
          rcases List.mem_cons.mp hm with he | hm2
          · simp only [Prod.mk.injEq] at he
            obtain ⟨rfl, rfl⟩ := he
            refine ⟨content, hn, ?_⟩
            rw [h2, dictLookup_append_not_key _ _ _ hnfk, dictLookup_cons, if_pos rfl]
          · exact h6 u q hm2

/-- The instrumented loop records the same paths and final state as the
source's loop. -/
theorem runDownloads_eq_runDownloadsR (hashFn : List Nat → List Nat)
    (netFile : String → Option (List Nat)) (tmpName save_dir : String) :
    ∀ (urls : List String) (s : DLState),
      runDownloads hashFn netFile tmpName save_dir urls s
        = ((runDownloadsR hashFn netFile tmpName save_dir urls s).1.map Prod.snd,
           (runDownloadsR hashFn netFile tmpName save_dir urls s).2) := by
  intro urls
  induction urls with
  | nil => intro s; rfl
  | cons url rest ih =>
    intro s
    cases hstep : (_download_and_dedupe hashFn netFile tmpName url save_dir s).1 with
    | none => simp [runDownloads, runDownloadsR, hstep, ih]
    | some p => simp [runDownloads, runDownloadsR, hstep, ih]

/-- After unlinking a name, looking it up fails. -/
theorem fsLookup_fsErase_self (fs : List (String × List Nat)) (n : String) :
    fsLookup (fsErase fs n) n = none := by
  induction fs with
  | nil => rfl
  | cons e fs2 ih =>
    by_cases he : e.1 = n
    · simpa [fsErase, List.filter_cons, he] using ih
    · simpa [fsErase, List.filter_cons, he, fsLookup] using ih

/-- A fold that prepends is the reversed map. -/
theorem foldl_cons_eq_reverse_map (g : String × List Nat → List Nat × String) :
    ∀ (l : List (String × List Nat)) (init : List (List Nat × String)),
      l.foldl (fun d f => g f :: d) init = (l.map g).reverse ++ init := by
  intro l
  induction l with
  | nil => intro init; simp
  | cons a l2 ih =>
    intro init
    simp [List.foldl_cons, ih]

/-- The preload index is the reversed per-file binding list (later files
shadow earlier ones on hash collision, like dict assignment). -/
theorem preloadHashes_eq (hashFn : List Nat → List Nat) (save_dir : String)
    (files0 : List (String × List Nat)) :
    preloadHashes hashFn save_dir files0
      = (files0.map (fun f => (hashFn f.2, save_dir ++ "/" ++ f.1))).reverse := by
  unfold preloadHashes
  rw [foldl_cons_eq_reverse_map]
  simp

/-- Every preexisting file contributes its binding to the preload. -/
theorem preloadHashes_mem (hashFn : List Nat → List Nat) (save_dir : String)
    (files0 : List (String × List Nat)) (f0 : String × List Nat) (hf : f0 ∈ files0) :
    (hashFn f0.2, save_dir ++ "/" ++ f0.1) ∈ preloadHashes hashFn save_dir files0 := by
  rw [preloadHashes_eq]
  exact List.mem_reverse.mpr (List.mem_map_of_mem _ hf)

/-- C1: over any URL list and any starting directory, the downloader
performs at most one physical write per distinct content hash: two URLs
serving byte-identical content resolve to the same recorded path; the
newly written files have pairwise-distinct hashes, none of which was
preloaded; a successful URL whose hash is not preloaded yields exactly one
new file with that hash; and a URL whose hash matches a preloaded file
resolves to the pre-existing indexed path. -/
theorem claim1_one_write_per_hash (hashFn : List Nat → List Nat)
    (netFile : String → Option (List Nat)) (save_dir : String)
    (urls : List String) (files0 : List (String × List Nat)) :
    (∀ u1 u2 p1 p2 c, (u1, p1) ∈ (harvestR hashFn netFile save_dir urls files0).1 →
        (u2, p2) ∈ (harvestR hashFn netFile save_dir urls files0).1 →
        netFile u1 = some c → netFile u2 = some c → p1 = p2)
    ∧ ((newFiles (harvestR hashFn netFile save_dir urls files0).2 files0).map
        (fun f => hashFn f.2)).Nodup
    ∧ (∀ f ∈ newFiles (harvestR hashFn netFile save_dir urls files0).2 files0,
        dictLookup (preloadHashes hashFn save_dir files0) (hashFn f.2) = none)
    ∧ (∀ u p c, (u, p) ∈ (harvestR hashFn netFile save_dir urls files0).1 →
        netFile u = some c →
        dictLookup (preloadHashes hashFn save_dir files0) (hashFn c) = none →
        ∃ f ∈ newFiles (harvestR hashFn netFile save_dir urls files0).2 files0,
          hashFn f.2 = hashFn c)
    ∧ (∀ u p c q, (u, p) ∈ (harvestR hashFn netFile save_dir urls files0).1 →
        netFile u = some c →
        dictLookup (preloadHashes hashFn save_dir files0) (hashFn c) = some q → p = q) := by
  obtain ⟨nf, h1, h2, h3, h4, h5, h6⟩ :=
    runDownloadsR_spec hashFn netFile "tmp" save_dir urls (initState hashFn save_dir files0)
  have hnf : newFiles (harvestR hashFn netFile save_dir urls files0).2 files0 = nf := by
    unfold newFiles harvestR
    rw [h1]
    have hfl : (initState hashFn save_dir files0).files = files0 := rfl
    rw [hfl, List.length_append, Nat.add_sub_cancel, List.take_left]
  refine ⟨?_, ?_, ?_, ?_, ?_⟩
  · intro u1 u2 p1 p2 c hm1 hm2 hn1 hn2
    obtain ⟨c1, hc1, hd1⟩ := h6 u1 p1 hm1
    obtain ⟨c2, hc2, hd2⟩ := h6 u2 p2 hm2
    rw [hn1] at hc1
    rw [hn2] at hc2
    obtain rfl := Option.some.inj hc1
    obtain rfl := Option.some.inj hc2
    rw [hd1] at hd2
    exact Option.some.inj hd2
  · rw [hnf]; exact h4
  · rw [hnf]; exact h3
  · intro u p c hm hnet hnone
    rw [hnf]
    obtain ⟨c2, hc2, hd⟩ := h6 u p hm
    rw [hnet] at hc2
    obtain rfl := Option.some.inj hc2
    by_contra hno
    push_neg at hno
    have hk : ∀ kv ∈ nf.map (fun f => (hashFn f.2, save_dir ++ "/" ++ f.1)),
        kv.1 ≠ hashFn c := by
      intro kv hkv
      obtain ⟨f, hf, rfl⟩ := List.mem_map.mp hkv
      exact fun he => hno f hf he
    rw [h2, dictLookup_append_not_key _ _ _ hk] at hd
    have hd2 : dictLookup (preloadHashes hashFn save_dir files0) (hashFn c) = some p := hd
    rw [hnone] at hd2
    exact Option.noConfusion hd2
  · intro u p c q hm hnet hq
    obtain ⟨c2, hc2, hd⟩ := h6 u p hm
    rw [hnet] at hc2
    obtain rfl := Option.some.inj hc2
    have hk : ∀ kv ∈ nf.map (fun f => (hashFn f.2, save_dir ++ "/" ++ f.1)),
        kv.1 ≠ hashFn c := by
      intro kv hkv
      obtain ⟨f, hf, rfl⟩ := List.mem_map.mp hkv
      intro he
      have he2 : hashFn f.2 = hashFn c := he
      have hcon := h3 f hf
      rw [he2] at hcon
      have hcon2 : dictLookup (preloadHashes hashFn save_dir files0) (hashFn c) = none := hcon
      rw [hq] at hcon2
      exact Option.noConfusion hcon2
    rw [h2, dictLookup_append_not_key _ _ _ hk] at hd
    have hd2 : dictLookup (preloadHashes hashFn save_dir files0) (hashFn c) = some p := hd
    rw [hq] at hd2
    exact (Option.some.inj hd2).symm

/-- C1 witness: one URL with fresh content next to a preloaded file —
exactly one new file with that content is written. -/
theorem claim1_witness :
    (("ua", "d/ua") ∈ (harvestR (fun c => c) (fun _ => some [7]) "d" ["ua"]
        [("old.pdf", [5])]).1)
    ∧ ∃ f ∈ newFiles (harvestR (fun c => c) (fun _ => some [7]) "d" ["ua"]
        [("old.pdf", [5])]).2 [("old.pdf", [5])], (fun (c : List Nat) => c) f.2 = [7] :=
  ⟨by decide, (claim1_one_write_per_hash (fun c => c) (fun _ => some [7]) "d" ["ua"]
    [("old.pdf", [5])]).2.2.2.1 "ua" "d/ua" [7] (by decide) rfl (by decide)⟩

/-- C2 fails as stated: a destination directory that already holds two
byte-identical files before the run still holds them after a harvest run
that downloads nothing — the directory does contain two files with
identical content hash. -/
theorem claim2_counterexample :
    ¬ (((scrape_viwanda_save (fun _ => none) (fun _ => none) (fun c => c) "p" "d" true 50
          [("a.pdf", [1]), ("b.pdf", [1])]).2.files).map
        (fun f => (fun (c : List Nat) => c) f.2)).Nodup := by
  have hfu : (walkAux (fun _ => none) true 50 ["p"] [] [] 0).fileUrls = [] := by
    rw [walkAux_fail (fun _ => none) true 50 "p" [] [] [] 0 (by omega) (by simp)
      (by simp [fetch_document_links_and_next])]
    simp [walkAux]
  have hs : scrape_viwanda_save (fun _ => none) (fun _ => none) (fun c => c) "p" "d" true 50
        [("a.pdf", [1]), ("b.pdf", [1])]
      = runDownloads (fun c => c) (fun _ => none) "tmp" "d"
          (sortUrls (walkAux (fun _ => none) true 50 ["p"] [] [] 0).fileUrls)
          (initState (fun c => c) "d" [("a.pdf", [1]), ("b.pdf", [1])]) := rfl
  rw [hs, hfu]
  decide

/-- C2 (amended): the duplicate-freeness of the destination directory is
preserved, not established: if no two files in the directory share a
content hash at the start of a harvest run, then no two files share a
content hash after it (counting preloaded and newly downloaded files). -/
theorem claim2_amended_dupfree_preserved (netPage : String → Option HtmlDoc)
    (netFile : String → Option (List Nat)) (hashFn : List Nat → List Nat)
    (page_url save_dir : String) (follow : Bool) (maxPages : Nat)
    (files0 : List (String × List Nat))
    (h0 : (files0.map (fun f => hashFn f.2)).Nodup) :
    (((scrape_viwanda_save netPage netFile hashFn page_url save_dir follow maxPages
        files0).2.files).map (fun f => hashFn f.2)).Nodup := by
  have hs : (scrape_viwanda_save netPage netFile hashFn page_url save_dir follow maxPages
        files0).2
      = (runDownloads hashFn netFile "tmp" save_dir
          (sortUrls (walkAux netPage follow maxPages [page_url] [] [] 0).fileUrls)
          (initState hashFn save_dir files0)).2 := rfl
  rw [hs, runDownloads_eq_runDownloadsR]
  obtain ⟨nf, h1, h2, h3, h4, h5, h6⟩ := runDownloadsR_spec hashFn netFile "tmp" save_dir
    (sortUrls (walkAux netPage follow maxPages [page_url] [] [] 0).fileUrls)
    (initState hashFn save_dir files0)
  rw [h1]
  have hfl : (initState hashFn save_dir files0).files = files0 := rfl
  rw [hfl, List.map_append, List.nodup_append]
  refine ⟨h4, h0, ?_⟩
  intro x hx hx0
  obtain ⟨f, hf, rfl⟩ := List.mem_map.mp hx
  obtain ⟨f0, hf0, hfe⟩ := List.mem_map.mp hx0
  have hnone : dictLookup (preloadHashes hashFn save_dir files0) (hashFn f.2) = none := h3 f hf
  have hmem := preloadHashes_mem hashFn save_dir files0 f0 hf0
  exact (dictLookup_none_forall _ _ hnone (hashFn f0.2, save_dir ++ "/" ++ f0.1) hmem)
    (by rw [hfe])

/-- C2 witness: a duplicate-free two-file directory stays duplicate-free
across a run. -/
theorem claim2_witness :
    ([("a.pdf", [1]), ("b.pdf", [2])].map (fun f => (fun (c : List Nat) => c) f.2)).Nodup
    ∧ (((scrape_viwanda_save (fun _ => none) (fun _ => none) (fun c => c) "p" "d" true 1
          [("a.pdf", [1]), ("b.pdf", [2])]).2.files).map
        (fun f => (fun (c : List Nat) => c) f.2)).Nodup :=
  ⟨by decide, claim2_amended_dupfree_preserved (fun _ => none) (fun _ => none) (fun c => c)
    "p" "d" true 1 [("a.pdf", [1]), ("b.pdf", [2])] (by decide)⟩

/-- C6: when a single-file download fails at any modelled point (network
error, non-success status, I/O failure — the fetch returns `none`), the
scratch temp file is removed, the directory and the hash index are
unchanged, no result is produced for that URL, and the loop's output over
the remaining URLs is exactly the output without the failed URL — the
failed URL is simply absent from the returned path list. -/
theorem claim6_download_failure_confined (hashFn : List Nat → List Nat)
    (netFile : String → Option (List Nat)) (tmpName url save_dir : String)
    (rest : List String) (s : DLState) (hfail : netFile url = none) :
    fsLookup (_download_and_dedupe hashFn netFile tmpName url save_dir s).2.scratch
        tmpName = none
    ∧ (_download_and_dedupe hashFn netFile tmpName url save_dir s).1 = none
    ∧ (_download_and_dedupe hashFn netFile tmpName url save_dir s).2.files = s.files
    ∧ (_download_and_dedupe hashFn netFile tmpName url save_dir s).2.hashes = s.hashes
    ∧ (runDownloads hashFn netFile tmpName save_dir (url :: rest) s).1
        = (runDownloads hashFn netFile tmpName save_dir rest
            (_download_and_dedupe hashFn netFile tmpName url save_dir s).2).1 := by
  have hstep := dl_fail hashFn netFile tmpName url save_dir s hfail
  refine ⟨?_, by rw [hstep], by rw [hstep], by rw [hstep], ?_⟩
  · rw [hstep]
    exact fsLookup_fsErase_self _ _
  · simp [runDownloads, hstep]

/-- C6 witness: a failing URL with a leftover scratch entry — the scratch
area no longer holds the temp name afterwards. -/
theorem claim6_witness :
    ((fun _ => (none : Option (List Nat))) "u" = none)
    ∧ fsLookup (_download_and_dedupe (fun c => c) (fun _ => none) "tmp" "u" "d"
        ⟨[], [], [("tmp", [1])]⟩).2.scratch "tmp" = none :=
  ⟨rfl, (claim6_download_failure_confined (fun c => c) (fun _ => none) "tmp" "u" "d" []
    ⟨[], [], [("tmp", [1])]⟩ rfl).1⟩

/-- C10: the returned path list has one entry per successfully processed
URL (not per distinct saved file): the saved list is the per-URL record's
path projection, whose URL projection is exactly the successful URLs in
order; concretely, two URLs serving identical bytes return the same path
twice while only one file exists on disk. -/
theorem claim10_one_entry_per_successful_url (hashFn : List Nat → List Nat)
    (netFile : String → Option (List Nat)) (tmpName save_dir : String)
    (urls : List String) (s : DLState) :
    (runDownloads hashFn netFile tmpName save_dir urls s).1
      = (runDownloadsR hashFn netFile tmpName save_dir urls s).1.map Prod.snd
    ∧ (runDownloadsR hashFn netFile tmpName save_dir urls s).1.map Prod.fst
      = urls.filter (fun u => (netFile u).isSome)
    ∧ (runDownloads (fun c => c) (fun _ => some [9]) "tmp" "d"
        ["https://a.com/x.pdf", "https://b.com/y.pdf"] (initState (fun c => c) "d" [])).1
      = ["d/x.pdf", "d/x.pdf"]
    ∧ ((runDownloads (fun c => c) (fun _ => some [9]) "tmp" "d"
        ["https://a.com/x.pdf", "https://b.com/y.pdf"]
        (initState (fun c => c) "d" [])).2.files).length = 1 := by
  refine ⟨?_, ?_, by decide, by decide⟩
  · rw [runDownloads_eq_runDownloadsR]
  · obtain ⟨nf, h1, h2, h3, h4, h5, h6⟩ :=
      runDownloadsR_spec hashFn netFile tmpName save_dir urls s
    exact h5
